import Mathlib

/-!
Verification development for `src/Comparacion2025A/main.py`.

Strings are modelled as `List Char`.  The Unicode primitives used by the
source (`unicodedata.normalize("NFKD")` / `unicodedata.combining`, the
`re` character classes `\w` and `\s` under `re.UNICODE`, and `str.lower`)
are modelled over ASCII plus the Spanish accented letters
á é í ó ú ñ ü (both cases), which is the alphabet the program's inputs
draw from; every classifier below is a total computable function on
`Char`.
-/

namespace Prepl

/-- Combining marks produced by the NFKD decompositions modelled below
(acute U+0301, tilde U+0303, diaeresis U+0308). -/
def combiningMarks : List Char := ['́', '̃', '̈']

/-- Model of `unicodedata.combining(ch) != 0`. -/
def isCombiningChar (c : Char) : Bool := combiningMarks.contains c

/-- NFKD decompositions of the precomposed accented letters in the model
alphabet: `(precomposed, base, combining mark)`. -/
def accentTable : List (Char × Char × Char) :=
  [('á', 'a', '́'), ('é', 'e', '́'), ('í', 'i', '́'),
   ('ó', 'o', '́'), ('ú', 'u', '́'), ('ñ', 'n', '̃'),
   ('ü', 'u', '̈'),
   ('Á', 'A', '́'), ('É', 'E', '́'), ('Í', 'I', '́'),
   ('Ó', 'O', '́'), ('Ú', 'U', '́'), ('Ñ', 'N', '̃'),
   ('Ü', 'U', '̈')]

/-- `c` has an NFKD decomposition in the model. -/
def isAccKey (c : Char) : Bool := (accentTable.find? (fun p => p.1 == c)).isSome

/-- Model of NFKD on a single character. -/
def nfkdChar (c : Char) : List Char :=
  match accentTable.find? (fun p => p.1 == c) with
  | some p => [p.2.1, p.2.2]
  | none => [c]

/-- `remove_accents` (main.py line 14): NFKD-decompose and drop
combining marks. -/
def remove_accents (l : List Char) : List Char :=
  (l.flatMap nfkdChar).filter (fun c => !isCombiningChar c)

/-- Case table for `str.lower` on the model alphabet. -/
def upperLower : List (Char × Char) :=
  [('A', 'a'), ('B', 'b'), ('C', 'c'), ('D', 'd'), ('E', 'e'), ('F', 'f'),
   ('G', 'g'), ('H', 'h'), ('I', 'i'), ('J', 'j'), ('K', 'k'), ('L', 'l'),
   ('M', 'm'), ('N', 'n'), ('O', 'o'), ('P', 'p'), ('Q', 'q'), ('R', 'r'),
   ('S', 's'), ('T', 't'), ('U', 'u'), ('V', 'v'), ('W', 'w'), ('X', 'x'),
   ('Y', 'y'), ('Z', 'z'),
   ('Á', 'á'), ('É', 'é'), ('Í', 'í'), ('Ó', 'ó'), ('Ú', 'ú'), ('Ñ', 'ñ'),
   ('Ü', 'ü')]

/-- `c` is an uppercase letter of the model alphabet. -/
def isUpperCh (c : Char) : Bool := (upperLower.find? (fun p => p.1 == c)).isSome

/-- Model of `str.lower` on one character. -/
def pyLower (c : Char) : Char :=
  match upperLower.find? (fun p => p.1 == c) with
  | some p => p.2
  | none => c

/-- Accented letters, which Python's `\w` (with `re.UNICODE`) matches. -/
def wordExtra : List Char :=
  ['á', 'é', 'í', 'ó', 'ú', 'ñ', 'ü', 'Á', 'É', 'Í', 'Ó', 'Ú', 'Ñ', 'Ü']

/-- Model of the regex class `\w`. -/
def isWordChar (c : Char) : Bool :=
  c.isAlpha || c.isDigit || c == '_' || wordExtra.contains c

/-- Model of the regex class `\s` and of the default `str.strip` set. -/
def isSpaceChar (c : Char) : Bool :=
  c == ' ' || c == '\t' || c == '\n' || c == '\x0b' || c == '\x0c' || c == '\r'

/-- Model of `str.strip()`: drop whitespace from both ends. -/
def pyStrip (l : List Char) : List Char :=
  ((l.dropWhile isSpaceChar).reverse.dropWhile isSpaceChar).reverse

/-- Worker for `collapseRuns`; `inRun` records whether the previous
character already belonged to a run being replaced. -/
def collapseRunsAux (p : Char → Bool) (r : Char) : Bool → List Char → List Char
  | _, [] => []
  | inRun, c :: cs =>
    if p c then
      if inRun then collapseRunsAux p r true cs
      else r :: collapseRunsAux p r true cs
    else c :: collapseRunsAux p r false cs

/-- Model of `re.sub("[class]+", r, s)` for a single-character class
test `p`: every maximal run of characters matching `p` becomes the
single character `r`. -/
def collapseRuns (p : Char → Bool) (r : Char) (l : List Char) : List Char :=
  collapseRunsAux p r false l

/-- First substitution of `to_snake_case` (main.py line 18):
`re.sub(r"[^\w\s-]", " ", s)`. -/
def sub1Char (c : Char) : Char :=
  if isWordChar c || isSpaceChar c || c == '-' then c else ' '

/-- Character matched by the second substitution `[-\s]+`. -/
def hyphenSpace (c : Char) : Bool := c == '-' || isSpaceChar c

/-- Character matched by the third substitution `_+`. -/
def underscoreCh (c : Char) : Bool := c == '_'

/-- `to_snake_case` (main.py lines 17-21):
`s = re.sub(r"[^\w\s-]", " ", s)`,
`s = re.sub(r"[-\s]+", "_", s.strip().lower())`,
`s = re.sub(r"_+", "_", s)`. -/
def to_snake_case (l : List Char) : List Char :=
  collapseRuns underscoreCh '_'
    (collapseRuns hyphenSpace '_' ((pyStrip (l.map sub1Char)).map pyLower))

/-- The spec's `normalize`: `to_snake_case(remove_accents(str(c).strip()))`
with the empty-result fallback `"columna"` (main.py lines 28-30). -/
def normalize (l : List Char) : List Char :=
  if to_snake_case (remove_accents (pyStrip l)) = [] then "columna".toList
  else to_snake_case (remove_accents (pyStrip l))

/-- A character that can occur in the output of `normalize`: a word
character that is lowercase (or caseless), not accent-decomposable, not a
combining mark, not whitespace and not a hyphen. -/
def normalChar (c : Char) : Bool :=
  isWordChar c && !isUpperCh c && !isAccKey c && !isCombiningChar c &&
    !isSpaceChar c && !(c == '-')

/-! ### Facts about the finite character tables -/

theorem upperLower_facts : ∀ p ∈ upperLower,
    isWordChar p.2 = true ∧ isUpperCh p.2 = false ∧ isCombiningChar p.2 = false ∧
    (isAccKey p.1 = true ∨ isAccKey p.2 = false) ∧ isSpaceChar p.2 = false ∧
    p.2 ≠ '-' := by decide

theorem accentTable_facts : ∀ p ∈ accentTable,
    isAccKey p.2.1 = false ∧ isCombiningChar p.2.1 = false ∧
    isCombiningChar p.2.2 = true := by decide

/-! ### Generic lemmas about `collapseRuns` -/

theorem collapseRunsAux_mem {p : Char → Bool} {r : Char} {b : Bool}
    {l : List Char} {c : Char} (h : c ∈ collapseRunsAux p r b l) :
    c = r ∨ (c ∈ l ∧ p c = false) := by
  induction l generalizing b with
  | nil => simp [collapseRunsAux] at h
  | cons a l ih =>
    by_cases hpa : p a
    · cases b with
      | true =>
        simp only [collapseRunsAux, hpa, if_true] at h
        rcases ih h with h1 | h1
        · exact Or.inl h1
        · exact Or.inr ⟨List.mem_cons_of_mem _ h1.1, h1.2⟩
      | false =>
        simp only [collapseRunsAux, hpa, if_true] at h
        rcases List.mem_cons.mp h with rfl | h1
        · exact Or.inl rfl
        · rcases ih h1 with h2 | h2
          · exact Or.inl h2
          · exact Or.inr ⟨List.mem_cons_of_mem _ h2.1, h2.2⟩
    · simp only [collapseRunsAux, hpa, if_false] at h
      rcases List.mem_cons.mp h with rfl | h1
      · exact Or.inr ⟨List.mem_cons_self _ _, by simp [hpa]⟩
      · rcases ih h1 with h2 | h2
        · exact Or.inl h2
        · exact Or.inr ⟨List.mem_cons_of_mem _ h2.1, h2.2⟩

theorem collapseRunsAux_head_not {p : Char → Bool} {r : Char}
    {l : List Char} {c : Char}
    (h : (collapseRunsAux p r true l).head? = some c) : p c = false := by
  induction l with
  | nil => simp [collapseRunsAux] at h
  | cons a l ih =>
    by_cases hpa : p a
    · simp only [collapseRunsAux, hpa, if_true] at h
      exact ih h
    · simp only [collapseRunsAux, hpa, if_false, List.head?_cons] at h
      cases h
      simpa using hpa

theorem collapseRunsAux_chain (p : Char → Bool) (r : Char) (b : Bool)
    (l : List Char) :
    List.Chain' (fun x y => ¬(p x = true ∧ p y = true))
      (collapseRunsAux p r b l) := by
  induction l generalizing b with
  | nil => simp [collapseRunsAux]
  | cons a l ih =>
    by_cases hpa : p a
    · cases b with
      | true => simpa only [collapseRunsAux, hpa, if_true] using ih true
      | false =>
        simp only [collapseRunsAux, hpa, if_true]
        refine List.chain'_cons'.mpr ⟨?_, ih true⟩
        intro y hy h2
        have := collapseRunsAux_head_not hy
        rw [this] at h2
        exact absurd h2.2 (by simp)
    · simp only [collapseRunsAux, hpa, if_false]
      refine List.chain'_cons'.mpr ⟨?_, ih false⟩
      intro y _ h2
      exact absurd h2.1 (by simp [hpa])

theorem collapseRunsAux_eq_self {p : Char → Bool} {r : Char} {b : Bool}
    {l : List Char} (h : ∀ c ∈ l, p c = false) :
    collapseRunsAux p r b l = l := by
  induction l generalizing b with
  | nil => rfl
  | cons a l ih =>
    have ha : p a = false := h a (List.mem_cons_self _ _)
    simp only [collapseRunsAux, ha, if_false, Bool.false_eq_true]
    exact congrArg (a :: ·) (ih (fun c hc => h c (List.mem_cons_of_mem _ hc)))

theorem collapseRunsAux_true_eq_false {p : Char → Bool} {r : Char}
    {l : List Char} (h : ∀ c ∈ l.head?, p c = false) :
    collapseRunsAux p r true l = collapseRunsAux p r false l := by
  cases l with
  | nil => rfl
  | cons a l =>
    have ha : p a = false := h a (by simp)
    simp [collapseRunsAux, ha]

theorem collapseRunsAux_underscore_eq_self {l : List Char}
    (hch : List.Chain' (fun x y => ¬(x = '_' ∧ y = '_')) l) :
    collapseRunsAux underscoreCh '_' false l = l := by
  induction l with
  | nil => rfl
  | cons a l ih =>
    obtain ⟨hhd, htl⟩ := List.chain'_cons'.mp hch
    by_cases ha : a = '_'
    · subst ha
      have h1 : collapseRunsAux underscoreCh '_' true l =
          collapseRunsAux underscoreCh '_' false l := by
        refine collapseRunsAux_true_eq_false ?_
        intro c hc
        have := hhd c hc
        simp only [underscoreCh]
        simpa using fun hc2 => this ⟨rfl, hc2⟩
      simp only [collapseRunsAux, underscoreCh, if_true, beq_self_eq_true]
      rw [h1, ih htl]
      simp
    · have ha2 : underscoreCh a = false := by simp [underscoreCh, ha]
      simp only [collapseRunsAux, ha2, Bool.false_eq_true, if_false]
      rw [ih htl]

/-! ### No-op lemmas for the remaining primitives -/

theorem dropWhile_eq_self_of {p : Char → Bool} {l : List Char}
    (h : ∀ c ∈ l, p c = false) : l.dropWhile p = l := by
  cases l with
  | nil => rfl
  | cons a l =>
    exact List.dropWhile_cons_of_neg (by simp [h a (List.mem_cons_self _ _)])

theorem pyStrip_eq_self {l : List Char}
    (h : ∀ c ∈ l, isSpaceChar c = false) : pyStrip l = l := by
  unfold pyStrip
  rw [dropWhile_eq_self_of h,
    dropWhile_eq_self_of (fun c hc => h c (List.mem_reverse.mp hc)),
    List.reverse_reverse]

theorem mem_pyStrip {l : List Char} {c : Char} (h : c ∈ pyStrip l) :
    c ∈ l := by
  unfold pyStrip at h
  rw [List.mem_reverse] at h
  have h1 := (List.dropWhile_sublist _).subset h
  rw [List.mem_reverse] at h1
  exact (List.dropWhile_sublist _).subset h1

theorem nfkdChar_eq_self {c : Char} (h : isAccKey c = false) :
    nfkdChar c = [c] := by
  unfold isAccKey at h
  unfold nfkdChar
  cases hf : accentTable.find? (fun p => p.1 == c) with
  | none => rfl
  | some p => rw [hf] at h; simp at h

theorem remove_accents_eq_self {l : List Char}
    (h : ∀ c ∈ l, isAccKey c = false ∧ isCombiningChar c = false) :
    remove_accents l = l := by
  induction l with
  | nil => rfl
  | cons a l ih =>
    have ha := h a (List.mem_cons_self _ _)
    unfold remove_accents
    rw [List.flatMap_cons, List.filter_append, nfkdChar_eq_self ha.1]
    have h1 : List.filter (fun c => !isCombiningChar c) [a] = [a] := by
      simp [List.filter, ha.2]
    rw [h1]
    have h2 := ih (fun c hc => h c (List.mem_cons_of_mem _ hc))
    unfold remove_accents at h2
    rw [h2]
    rfl

theorem map_eq_self_of {f : Char → Char} {l : List Char}
    (h : ∀ c ∈ l, f c = c) : l.map f = l := by
  induction l with
  | nil => rfl
  | cons a l ih =>
    rw [List.map_cons, h a (List.mem_cons_self _ _),
      ih (fun c hc => h c (List.mem_cons_of_mem _ hc))]

theorem pyLower_eq_self {c : Char} (h : isUpperCh c = false) :
    pyLower c = c := by
  unfold isUpperCh at h
  unfold pyLower
  cases hf : upperLower.find? (fun p => p.1 == c) with
  | none => rfl
  | some p => rw [hf] at h; simp at h

/-! ### Characterization of the characters of `normalize` output -/

theorem remove_accents_mem {l : List Char} :
    ∀ c ∈ remove_accents l, isAccKey c = false ∧ isCombiningChar c = false := by
  intro c hc
  unfold remove_accents at hc
  obtain ⟨hmem, hcomb⟩ := List.mem_filter.mp hc
  have hcomb2 : isCombiningChar c = false := by simpa using hcomb
  refine ⟨?_, hcomb2⟩
  obtain ⟨a, _, hca⟩ := List.mem_flatMap.mp hmem
  unfold nfkdChar at hca
  cases hf : accentTable.find? (fun p => p.1 == a) with
  | none =>
    rw [hf] at hca
    have : c = a := by simpa using hca
    subst this
    simpa [isAccKey] using congrArg Option.isSome hf
  | some p =>
    rw [hf] at hca
    have hp := accentTable_facts p (List.mem_of_find?_eq_some hf)
    rcases List.mem_cons.mp hca with rfl | hca2
    · exact hp.1
    · have : c = p.2.2 := by simpa using hca2
      subst this
      rw [hp.2.2] at hcomb2
      cases hcomb2

theorem sub1Char_facts (c : Char) :
    (isWordChar (sub1Char c) || isSpaceChar (sub1Char c) || sub1Char c == '-') = true ∧
    (isAccKey c = false → isAccKey (sub1Char c) = false) ∧
    (isCombiningChar c = false → isCombiningChar (sub1Char c) = false) := by
  unfold sub1Char
  split
  · next h => exact ⟨h, fun h2 => h2, fun h2 => h2⟩
  · exact ⟨by decide, fun _ => by decide, fun _ => by decide⟩

theorem pyLower_facts (c : Char) :
    isUpperCh (pyLower c) = false ∧
    ((isWordChar c || isSpaceChar c || c == '-') = true →
      (isWordChar (pyLower c) || isSpaceChar (pyLower c) || pyLower c == '-') = true) ∧
    (isAccKey c = false → isAccKey (pyLower c) = false) ∧
    (isCombiningChar c = false → isCombiningChar (pyLower c) = false) := by
  unfold pyLower
  cases hf : upperLower.find? (fun p => p.1 == c) with
  | none =>
    have : isUpperCh c = false := by simpa [isUpperCh] using congrArg Option.isSome hf
    exact ⟨this, fun h => h, fun h => h, fun h => h⟩
  | some p =>
    have hp := upperLower_facts p (List.mem_of_find?_eq_some hf)
    have hpc : p.1 = c := by
      have := List.find?_some hf
      simpa using this
    refine ⟨hp.2.1, fun _ => by simp [hp.1], fun h2 => ?_, fun _ => hp.2.2.1⟩
    rcases hp.2.2.2.1 with h3 | h3
    · rw [hpc] at h3; rw [h3] at h2; cases h2
    · exact h3

theorem to_snake_case_normal {l : List Char} :
    ∀ c ∈ to_snake_case (remove_accents l), normalChar c = true := by
  intro c hc
  unfold to_snake_case at hc
  rcases collapseRunsAux_mem hc with rfl | ⟨hc1, _⟩
  · decide
  rcases collapseRunsAux_mem hc1 with rfl | ⟨hc2, hhs⟩
  · decide
  obtain ⟨d, hd, rfl⟩ := List.mem_map.mp hc2
  have hd1 := mem_pyStrip hd
  obtain ⟨e, he, rfl⟩ := List.mem_map.mp hd1
  have he1 := remove_accents_mem e he
  have hs1 := sub1Char_facts e
  have hl1 := pyLower_facts (sub1Char e)
  have hclass := hl1.2.1 hs1.1
  have hacc : isAccKey (pyLower (sub1Char e)) = false :=
    hl1.2.2.1 (hs1.2.1 he1.1)
  have hcomb : isCombiningChar (pyLower (sub1Char e)) = false :=
    hl1.2.2.2 (hs1.2.2 he1.2)
  have hnspace : isSpaceChar (pyLower (sub1Char e)) = false := by
    by_cases hsp : isSpaceChar (pyLower (sub1Char e)) = true
    · exfalso
      have : hyphenSpace (pyLower (sub1Char e)) = true := by
        simp [hyphenSpace, hsp]
      rw [this] at hhs; cases hhs
    · simpa using hsp
  have hnhyph : (pyLower (sub1Char e) == '-') = false := by
    by_cases hhy : (pyLower (sub1Char e) == '-') = true
    · exfalso
      have : hyphenSpace (pyLower (sub1Char e)) = true := by
        simp only [hyphenSpace, hhy, Bool.true_or]
      rw [this] at hhs; cases hhs
    · simpa using hhy
  have hword : isWordChar (pyLower (sub1Char e)) = true := by
    rcases Bool.or_eq_true_iff.mp hclass with h3 | h3
    · rcases Bool.or_eq_true_iff.mp h3 with h4 | h4
      · exact h4
      · rw [h4] at hnspace; cases hnspace
    · rw [h3] at hnhyph; cases hnhyph
  simp [normalChar, hword, hl1.1, hacc, hcomb, hnspace, hnhyph]

theorem to_snake_case_chain (l : List Char) :
    List.Chain' (fun x y => ¬(x = '_' ∧ y = '_')) (to_snake_case l) := by
  unfold to_snake_case
  have h := collapseRunsAux_chain underscoreCh '_' false
    (collapseRuns hyphenSpace '_' ((pyStrip (l.map sub1Char)).map pyLower))
  refine h.imp ?_
  intro x y hxy hxy2
  exact hxy (by simp [underscoreCh, hxy2.1, hxy2.2])

theorem normalChar_eq_true {c : Char} (h : normalChar c = true) :
    isWordChar c = true ∧ isUpperCh c = false ∧ isAccKey c = false ∧
    isCombiningChar c = false ∧ isSpaceChar c = false ∧ c ≠ '-' := by
  simp [normalChar] at h
  obtain ⟨⟨⟨⟨⟨hw, hu⟩, ha⟩, hcb⟩, hs⟩, hh⟩ := h
  exact ⟨hw, hu, ha, hcb, hs, hh⟩

theorem normalize_normal (l : List Char) :
    ∀ c ∈ normalize l, normalChar c = true := by
  intro c hc
  unfold normalize at hc
  split at hc
  · revert hc
    revert c
    decide
  · exact to_snake_case_normal c hc

theorem chain'_of_no_underscore {l : List Char} (h : ∀ c ∈ l, c ≠ '_') :
    List.Chain' (fun x y => ¬(x = '_' ∧ y = '_')) l := by
  induction l with
  | nil => simp
  | cons a l ih =>
    refine List.chain'_cons'.mpr ⟨?_, ih fun c hc => h c (List.mem_cons_of_mem _ hc)⟩
    intro y _ hy
    exact h a (List.mem_cons_self _ _) hy.1

theorem normalize_chain (l : List Char) :
    List.Chain' (fun x y => ¬(x = '_' ∧ y = '_')) (normalize l) := by
  unfold normalize
  split
  · exact chain'_of_no_underscore (by decide)
  · exact to_snake_case_chain _

theorem normalize_ne_nil (l : List Char) : normalize l ≠ [] := by
  unfold normalize
  split
  · decide
  · next h => exact h

/-- `normalize` is the identity on any nonempty list of `normalChar`
characters with no two adjacent underscores. -/
theorem normalize_fixed {t : List Char}
    (hnn : ∀ c ∈ t, normalChar c = true)
    (hch : List.Chain' (fun x y => ¬(x = '_' ∧ y = '_')) t)
    (hne : t ≠ []) : normalize t = t := by
  have hword : ∀ c ∈ t, isWordChar c = true :=
    fun c hc => (normalChar_eq_true (hnn c hc)).1
  have hupper : ∀ c ∈ t, isUpperCh c = false :=
    fun c hc => (normalChar_eq_true (hnn c hc)).2.1
  have hacc : ∀ c ∈ t, isAccKey c = false :=
    fun c hc => (normalChar_eq_true (hnn c hc)).2.2.1
  have hcomb : ∀ c ∈ t, isCombiningChar c = false :=
    fun c hc => (normalChar_eq_true (hnn c hc)).2.2.2.1
  have hspace : ∀ c ∈ t, isSpaceChar c = false :=
    fun c hc => (normalChar_eq_true (hnn c hc)).2.2.2.2.1
  have hhyph : ∀ c ∈ t, ¬c = '-' :=
    fun c hc => (normalChar_eq_true (hnn c hc)).2.2.2.2.2
  have h1 : pyStrip t = t := pyStrip_eq_self hspace
  have h2 : remove_accents t = t :=
    remove_accents_eq_self (fun c hc => ⟨hacc c hc, hcomb c hc⟩)
  have h3 : t.map sub1Char = t := map_eq_self_of (by
    intro c hc
    unfold sub1Char
    rw [if_pos (by simp [hword c hc])])
  have h4 : t.map pyLower = t :=
    map_eq_self_of (fun c hc => pyLower_eq_self (hupper c hc))
  have h5 : collapseRuns hyphenSpace '_' t = t :=
    collapseRunsAux_eq_self (by
      intro c hc
      simp [hyphenSpace, hspace c hc, hhyph c hc])
  have h6 : collapseRuns underscoreCh '_' t = t :=
    collapseRunsAux_underscore_eq_self hch
  have h7 : to_snake_case (remove_accents (pyStrip t)) = t := by
    rw [h1, h2]
    unfold to_snake_case
    rw [h3, h1, h4, h5, h6]
  unfold normalize
  simp only [h7]
  rw [if_neg hne]

/-- C7: for every text `x`, `normalize (normalize x) = normalize x`:
normalization, including the empty-result fallback to `"columna"`, is
idempotent. -/
theorem C7_normalize_idempotent (l : List Char) :
    normalize (normalize l) = normalize l :=
  normalize_fixed (normalize_normal l) (normalize_chain l) (normalize_ne_nil l)

theorem normalize_chars (l : List Char) :
    ∀ c ∈ normalize l, isWordChar c = true ∧ isUpperCh c = false ∧
      c ≠ '-' ∧ isSpaceChar c = false ∧ isAccKey c = false ∧
      isCombiningChar c = false := by
  intro c hc
  have h := normalChar_eq_true (normalize_normal l c hc)
  exact ⟨h.1, h.2.1, h.2.2.2.2.2, h.2.2.2.2.1, h.2.2.1, h.2.2.2.1⟩

/-- C8: every character of `normalize` output is a word character and is
not uppercase, not a hyphen, not whitespace, and not accented (neither an
accent-decomposable letter nor a combining mark). -/
theorem C8_normalize_charset (l : List Char) :
    ∀ c ∈ normalize l, isWordChar c = true ∧ isUpperCh c = false ∧
      c ≠ '-' ∧ isSpaceChar c = false ∧ isAccKey c = false ∧
      isCombiningChar c = false :=
  normalize_chars l

/-- Witness for C8 at a concrete input. -/
theorem C8_witness :
    isWordChar 'n' = true ∧ isUpperCh 'n' = false ∧ 'n' ≠ '-' ∧
      isSpaceChar 'n' = false ∧ isAccKey 'n' = false ∧
      isCombiningChar 'n' = false :=
  C8_normalize_charset "Número Cliente".toList 'n' (by decide)

/-- C6 (amended): `normalize` collapses every run of hyphens and
whitespace into a single underscore and lowercases the result, so its
output contains no hyphen, no whitespace, no uppercase letter and no two
adjacent underscores; but it trims only leading/trailing whitespace, not
underscores, so the returned name can start or end with an underscore. -/
theorem C6_to_snake_collapse (l : List Char) :
    (∀ c ∈ normalize l, c ≠ '-' ∧ isSpaceChar c = false ∧
      isUpperCh c = false) ∧
    List.Chain' (fun x y => ¬(x = '_' ∧ y = '_')) (normalize l) := by
  refine ⟨?_, normalize_chain l⟩
  intro c hc
  have h := normalize_chars l c hc
  exact ⟨h.2.2.1, h.2.2.2.1, h.2.1⟩

/-- Witness for C6 at a concrete input. -/
theorem C6_witness :
    ('t' ≠ '-' ∧ isSpaceChar 't' = false ∧ isUpperCh 't' = false) ∧
      List.Chain' (fun x y => ¬(x = '_' ∧ y = '_'))
        (normalize "Total (USD)".toList) :=
  ⟨(C6_to_snake_collapse "Total (USD)".toList).1 't' (by decide),
    (C6_to_snake_collapse "Total (USD)".toList).2⟩

/-- Counterexample for C6 as stated: the input `"-a"` normalizes to
`"_a"`, which starts with an underscore, so leading underscores are not
trimmed (the source strips only whitespace before replacing hyphen runs
with underscores). -/
theorem C6_counterexample :
    normalize ['-', 'a'] = ['_', 'a'] ∧
      (normalize ['-', 'a']).head? = some '_' := by decide

/-! ### Header deduplication (`normalize_headers`, main.py lines 23-39) -/

/-- Decimal rendering worker; the fuel argument only bounds recursion
depth and is chosen large enough to be exact. -/
def decDigitsAux : Nat → Nat → List Char
  | 0, _ => []
  | _ + 1, 0 => []
  | f + 1, n + 1 =>
    decDigitsAux f ((n + 1) / 10) ++ [Nat.digitChar ((n + 1) % 10)]

/-- Decimal rendering of a counter value, as Python's string formatting
produces it for a positive integer. -/
def decDigits (n : Nat) : List Char := decDigitsAux n n

/-- The `_k` suffix that `normalize_headers` appends to a duplicate. -/
def suffix (k : Nat) : List Char := '_' :: decDigits k

/-- The name emitted for a normalized header whose previous occurrence
count is `k`: kept as-is on first occurrence, else suffixed `_k`. -/
def dedupName (n : List Char) (k : Nat) : List Char :=
  if k = 0 then n else n ++ suffix k

/-- Lookup in the `seen` dictionary. -/
def lookupSeen (seen : List (List Char × Nat)) (k : List Char) : Option Nat :=
  (seen.find? (fun p => p.1 == k)).map (fun p => p.2)

/-- `seen[k] = v` on an existing key (Python dict update). -/
def bumpSeen (seen : List (List Char × Nat)) (k : List Char) (v : Nat) :
    List (List Char × Nat) :=
  seen.map (fun p => if p.1 == k then (p.1, v) else p)

/-- The loop of `normalize_headers`: for each raw label, normalize it;
on a repeat of a name already in `seen`, increment its counter and emit
the suffixed name (the suffixed name itself is not recorded in `seen`). -/
def normHeadersGo (seen : List (List Char × Nat)) :
    List (List Char) → List (List Char)
  | [] => []
  | c :: cs =>
    match lookupSeen seen (normalize c) with
    | some n => (normalize c ++ suffix (n + 1)) ::
        normHeadersGo (bumpSeen seen (normalize c) (n + 1)) cs
    | none => normalize c :: normHeadersGo ((normalize c, 0) :: seen) cs

/-- `normalize_headers` (main.py lines 23-39), acting on the list of raw
column labels. -/
def normalize_headers (hs : List (List Char)) : List (List Char) :=
  normHeadersGo [] hs

theorem lookupSeen_cons_zero (seen : List (List Char × Nat))
    (k k2 : List Char) :
    lookupSeen ((k, 0) :: seen) k2 =
      if k2 = k then some 0 else lookupSeen seen k2 := by
  by_cases h : k2 = k
  · subst h; simp [lookupSeen, List.find?]
  · rw [if_neg h]
    have : (k == k2) = false := by
      simpa using fun h2 => h h2.symm
    simp [lookupSeen, List.find?, this]

theorem lookupSeen_bump_self {seen : List (List Char × Nat)}
    {k : List Char} {n : Nat} (v : Nat) (h : lookupSeen seen k = some n) :
    lookupSeen (bumpSeen seen k v) k = some v := by
  induction seen with
  | nil => simp [lookupSeen] at h
  | cons p rest ih =>
    by_cases hp : p.1 = k
    · have hb : (p.1 == k) = true := by simpa using hp
      simp [lookupSeen, bumpSeen, List.find?, hb]
    · have hb : (p.1 == k) = false := by simpa using hp
      simp only [lookupSeen, bumpSeen, List.map_cons, List.find?, hb,
        if_false, Bool.false_eq_true] at h ⊢
      exact ih (by simpa [lookupSeen] using h)

theorem lookupSeen_bump_other {seen : List (List Char × Nat)}
    {k k2 : List Char} (v : Nat) (h : k2 ≠ k) :
    lookupSeen (bumpSeen seen k v) k2 = lookupSeen seen k2 := by
  induction seen with
  | nil => rfl
  | cons p rest ih =>
    by_cases hp : p.1 = k
    · have hb : (p.1 == k) = true := by simpa using hp
      have hb2 : (p.1 == k2) = false := by
        simp only [beq_eq_false_iff_ne, ne_eq]
        intro h2; exact h (h2 ▸ hp ▸ rfl)
      have hb2' : (k == k2) = false := by
        simpa [hp] using hb2
      simp [lookupSeen, bumpSeen, List.find?, hb, hb2, hb2'] at ih ⊢
      exact ih
    · have hb : (p.1 == k) = false := by simpa using hp
      by_cases hq : p.1 = k2
      · have hb2 : (p.1 == k2) = true := by simpa using hq
        simp [lookupSeen, bumpSeen, List.find?, hb, hb2]
      · have hb2 : (p.1 == k2) = false := by simpa using hq
        simp only [lookupSeen, bumpSeen, List.map_cons, List.find?, hb, hb2,
          if_false, Bool.false_eq_true] at ih ⊢
        exact ih

theorem normHeadersGo_length (seen : List (List Char × Nat))
    (cs : List (List Char)) :
    (normHeadersGo seen cs).length = cs.length := by
  induction cs generalizing seen with
  | nil => rfl
  | cons c cs ih =>
    cases h : lookupSeen seen (normalize c) with
    | some n => simp [normHeadersGo, h, ih]
    | none => simp [normHeadersGo, h, ih]

theorem normHeadersGo_getElem? (cs : List (List Char))
    (seen : List (List Char × Nat)) (cnt : List Char → Nat)
    (hseen : ∀ k, lookupSeen seen k =
      if cnt k = 0 then none else some (cnt k - 1)) :
    ∀ i, i < cs.length →
      (normHeadersGo seen cs)[i]? =
        some (dedupName (normalize (cs.getD i []))
          (cnt (normalize (cs.getD i [])) +
            ((cs.take i).map normalize).count (normalize (cs.getD i [])))) := by
  induction cs generalizing seen cnt with
  | nil => intro i hi; simp at hi
  | cons c cs ih =>
    intro i hi
    cases i with
    | zero =>
      simp only [normHeadersGo, List.getD_cons_zero, List.take_zero,
        List.map_nil, List.count_nil, Nat.add_zero]
      rw [hseen (normalize c)]
      by_cases hc0 : cnt (normalize c) = 0
      · rw [if_pos hc0]
        simp [dedupName, hc0]
      · rw [if_neg hc0]
        simp only [List.getElem?_cons_zero, Option.some.injEq]
        rw [dedupName, if_neg hc0]
        have harith : cnt (normalize c) - 1 + 1 = cnt (normalize c) := by omega
        rw [harith]
    | succ i =>
      have hi2 : i < cs.length := by simpa using hi
      simp only [normHeadersGo, List.getD_cons_succ, List.take_succ_cons,
        List.map_cons]
      rw [hseen (normalize c)]
      by_cases hc0 : cnt (normalize c) = 0
      · rw [if_pos hc0]
        rw [List.getElem?_cons_succ]
        have hseen2 : ∀ k, lookupSeen ((normalize c, 0) :: seen) k =
            if (if k = normalize c then cnt k + 1 else cnt k) = 0 then none
            else some ((if k = normalize c then cnt k + 1 else cnt k) - 1) := by
          intro k
          rw [lookupSeen_cons_zero]
          by_cases hk : k = normalize c
          · subst hk
            rw [if_pos rfl, if_pos rfl, if_neg (by omega)]
            rw [hc0]
          · rw [if_neg hk, if_neg hk, hseen k]
        have hih := ih ((normalize c, 0) :: seen)
          (fun k => if k = normalize c then cnt k + 1 else cnt k) hseen2 i hi2
        simp only [] at hih
        rw [hih]
        have harith : (if normalize (cs.getD i []) = normalize c
              then cnt (normalize (cs.getD i [])) + 1
              else cnt (normalize (cs.getD i []))) +
            ((cs.take i).map normalize).count (normalize (cs.getD i [])) =
            cnt (normalize (cs.getD i [])) +
            (normalize c :: (cs.take i).map normalize).count
              (normalize (cs.getD i [])) := by
          rw [List.count_cons]
          by_cases hk : normalize (cs.getD i []) = normalize c
          · rw [if_pos hk]
            have hb : (normalize c == normalize (cs.getD i [])) = true := by
              rw [hk, beq_self_eq_true]
            rw [hb]
            simp only [eq_self_iff_true, if_true]
            omega
          · rw [if_neg hk]
            have hb : (normalize c == normalize (cs.getD i [])) = false :=
              beq_eq_false_iff_ne.mpr (fun h2 => hk h2.symm)
            rw [hb]
            simp only [Bool.false_eq_true, if_false]
            omega
        rw [harith]
      · rw [if_neg hc0]
        rw [List.getElem?_cons_succ]
        have hlook : lookupSeen seen (normalize c) = some (cnt (normalize c) - 1) := by
          rw [hseen (normalize c), if_neg hc0]
        have hseen2 : ∀ k, lookupSeen (bumpSeen seen (normalize c) (cnt (normalize c) - 1 + 1)) k =
            if (if k = normalize c then cnt k + 1 else cnt k) = 0 then none
            else some ((if k = normalize c then cnt k + 1 else cnt k) - 1) := by
          intro k
          by_cases hk : k = normalize c
          · subst hk
            rw [lookupSeen_bump_self _ hlook]
            try simp only [eq_self_iff_true, if_true]
            rw [if_neg (show ¬(cnt (normalize c) + 1 = 0) by omega)]
            congr 1
            omega
          · rw [lookupSeen_bump_other _ hk, hseen k]
            simp only [if_neg hk]
        have hih := ih (bumpSeen seen (normalize c) (cnt (normalize c) - 1 + 1))
          (fun k => if k = normalize c then cnt k + 1 else cnt k) hseen2 i hi2
        simp only [] at hih
        rw [hih]
        have harith : (if normalize (cs.getD i []) = normalize c
              then cnt (normalize (cs.getD i [])) + 1
              else cnt (normalize (cs.getD i []))) +
            ((cs.take i).map normalize).count (normalize (cs.getD i [])) =
            cnt (normalize (cs.getD i [])) +
            (normalize c :: (cs.take i).map normalize).count
              (normalize (cs.getD i [])) := by
          rw [List.count_cons]
          by_cases hk : normalize (cs.getD i []) = normalize c
          · rw [if_pos hk]
            have hb : (normalize c == normalize (cs.getD i [])) = true := by
              rw [hk, beq_self_eq_true]
            rw [hb]
            simp only [eq_self_iff_true, if_true]
            omega
          · rw [if_neg hk]
            have hb : (normalize c == normalize (cs.getD i [])) = false :=
              beq_eq_false_iff_ne.mpr (fun h2 => hk h2.symm)
            rw [hb]
            simp only [Bool.false_eq_true, if_false]
            omega
        rw [harith]

theorem normalize_headers_getElem? (hs : List (List Char)) (i : Nat)
    (h : i < hs.length) :
    (normalize_headers hs)[i]? =
      some (dedupName (normalize (hs.getD i []))
        (((hs.take i).map normalize).count (normalize (hs.getD i [])))) := by
  have := normHeadersGo_getElem? hs [] (fun _ => 0)
    (fun k => by simp [lookupSeen]) i h
  simpa [normalize_headers] using this

/-- C5: processing headers in original order, the first occurrence of a
normalized name is kept as-is and the k-th subsequent occurrence of the
same normalized name is suffixed with `_k`, a per-name counter starting
at 1. -/
theorem C5_dedup_counter (hs : List (List Char)) (i : Nat)
    (h : i < hs.length) :
    (normalize_headers hs)[i]? =
      some (dedupName (normalize (hs.getD i []))
        (((hs.take i).map normalize).count (normalize (hs.getD i [])))) :=
  normalize_headers_getElem? hs i h

/-- Witness for C5: the header list `["Total", "total", "Total"]`
normalizes to `["total", "total_1", "total_2"]`; position 2 shown here by
applying the theorem. -/
theorem C5_witness :
    (normalize_headers ["Total".toList, "total".toList, "Total".toList])[2]? =
      some "total_2".toList := by
  have h := C5_dedup_counter
    ["Total".toList, "total".toList, "Total".toList] 2 (by decide)
  rw [h]
  decide

/-! ### Injectivity of the decimal suffix and uniqueness analysis -/

/-- Value of a decimal digit string (inverse of `decDigits`). -/
def digitsVal (l : List Char) : Nat :=
  l.foldl (fun a c => 10 * a + (c.toNat - 48)) 0

theorem digitChar_toNat {d : Nat} (h : d < 10) :
    (Nat.digitChar d).toNat = 48 + d := by
  interval_cases d <;> rfl

theorem digitsVal_append_digit (l : List Char) (c : Char) :
    digitsVal (l ++ [c]) = 10 * digitsVal l + (c.toNat - 48) := by
  simp [digitsVal, List.foldl_append]

theorem digitsVal_decDigitsAux :
    ∀ f n, n ≤ f → digitsVal (decDigitsAux f n) = n := by
  intro f
  induction f with
  | zero =>
    intro n hn
    have : n = 0 := by omega
    subst this
    rfl
  | succ f ih =>
    intro n hn
    cases n with
    | zero => rfl
    | succ n =>
      have hdiv : (n + 1) / 10 ≤ f := by
        have := Nat.div_lt_self (Nat.succ_pos n) (by omega : 1 < 10)
        omega
      rw [decDigitsAux, digitsVal_append_digit, ih _ hdiv,
        digitChar_toNat (Nat.mod_lt _ (by omega))]
      omega

theorem decDigits_inj {m n : Nat} (h : decDigits m = decDigits n) : m = n := by
  have h1 := digitsVal_decDigitsAux m m le_rfl
  have h2 := digitsVal_decDigitsAux n n le_rfl
  rw [← h1, ← h2]
  unfold decDigits at h
  rw [h]

theorem decDigitsAux_mem :
    ∀ f n, ∀ c ∈ decDigitsAux f n, ∃ d, d < 10 ∧ c = Nat.digitChar d := by
  intro f
  induction f with
  | zero => intro n c hc; simp [decDigitsAux] at hc
  | succ f ih =>
    intro n c hc
    cases n with
    | zero => simp [decDigitsAux] at hc
    | succ n =>
      rw [decDigitsAux] at hc
      rcases List.mem_append.mp hc with hc1 | hc1
      · exact ih _ c hc1
      · have : c = Nat.digitChar ((n + 1) % 10) := by simpa using hc1
        exact ⟨(n + 1) % 10, Nat.mod_lt _ (by omega), this⟩

theorem digitChar_normal : ∀ d, d < 10 → normalChar (Nat.digitChar d) = true := by
  intro d hd
  interval_cases d <;> decide

theorem suffix_chars {k : Nat} : ∀ c ∈ suffix k, normalChar c = true := by
  intro c hc
  rcases List.mem_cons.mp hc with rfl | hc1
  · decide
  · obtain ⟨d, hd, rfl⟩ := decDigitsAux_mem _ _ c hc1
    exact digitChar_normal d hd

theorem dedupName_ne_nil {n : List Char} {k : Nat} (h : n ≠ []) :
    dedupName n k ≠ [] := by
  unfold dedupName
  split
  · exact h
  · simp [suffix]

theorem dedupName_chars {n : List Char} {k : Nat}
    (h : ∀ c ∈ n, normalChar c = true) :
    ∀ c ∈ dedupName n k, normalChar c = true := by
  intro c hc
  unfold dedupName at hc
  split at hc
  · exact h c hc
  · rcases List.mem_append.mp hc with hc1 | hc1
    · exact h c hc1
    · exact suffix_chars c hc1

theorem normHeadersGo_mem {seen : List (List Char × Nat)}
    {cs : List (List Char)} {n : List Char} (h : n ∈ normHeadersGo seen cs) :
    ∃ c ∈ cs, ∃ k, n = dedupName (normalize c) k := by
  induction cs generalizing seen with
  | nil => simp [normHeadersGo] at h
  | cons c cs ih =>
    cases hl : lookupSeen seen (normalize c) with
    | some m =>
      rw [normHeadersGo, hl] at h
      rcases List.mem_cons.mp h with rfl | h1
      · exact ⟨c, List.mem_cons_self _ _, m + 1, by rw [dedupName, if_neg (by omega)]⟩
      · obtain ⟨c2, hc2, k, hk⟩ := ih h1
        exact ⟨c2, List.mem_cons_of_mem _ hc2, k, hk⟩
    | none =>
      rw [normHeadersGo, hl] at h
      rcases List.mem_cons.mp h with rfl | h1
      · exact ⟨c, List.mem_cons_self _ _, 0, by rw [dedupName, if_pos rfl]⟩
      · obtain ⟨c2, hc2, k, hk⟩ := ih h1
        exact ⟨c2, List.mem_cons_of_mem _ hc2, k, hk⟩

theorem append_underscore_inj :
    ∀ (a b x y : List Char), '_' ∉ a → '_' ∉ b →
      a ++ '_' :: x = b ++ '_' :: y → a = b ∧ x = y := by
  intro a
  induction a with
  | nil =>
    intro b x y _ hb h
    cases b with
    | nil => simpa using h
    | cons d b =>
      exfalso
      rw [List.nil_append, List.cons_append] at h
      have : d = '_' := (List.cons.injEq _ _ _ _).mp h |>.1.symm
      exact hb (this ▸ List.mem_cons_self _ _)
  | cons e a ih =>
    intro b x y ha hb h
    cases b with
    | nil =>
      exfalso
      rw [List.cons_append, List.nil_append] at h
      have : e = '_' := (List.cons.injEq _ _ _ _).mp h |>.1
      exact ha (this ▸ List.mem_cons_self _ _)
    | cons d b =>
      rw [List.cons_append, List.cons_append] at h
      obtain ⟨hed, htl⟩ := (List.cons.injEq _ _ _ _).mp h
      obtain ⟨hab, hxy⟩ := ih b x y
        (fun hm => ha (List.mem_cons_of_mem _ hm))
        (fun hm => hb (List.mem_cons_of_mem _ hm)) htl
      exact ⟨by rw [hed, hab], hxy⟩

theorem dedupName_inj {a b : List Char} {k j : Nat}
    (ha : '_' ∉ a) (hb : '_' ∉ b)
    (h : dedupName a k = dedupName b j) : a = b ∧ k = j := by
  unfold dedupName at h
  rcases Nat.eq_zero_or_pos k with hk | hk <;>
    rcases Nat.eq_zero_or_pos j with hj | hj
  · rw [if_pos hk, if_pos hj] at h
    exact ⟨h, by omega⟩
  · rw [if_pos hk, if_neg (by omega)] at h
    exfalso
    apply ha
    rw [h]
    exact List.mem_append_right _ (List.mem_cons_self _ _)
  · rw [if_neg (by omega), if_pos hj] at h
    exfalso
    apply hb
    rw [← h]
    exact List.mem_append_right _ (List.mem_cons_self _ _)
  · rw [if_neg (by omega), if_neg (by omega)] at h
    obtain ⟨hab, hsfx⟩ := append_underscore_inj a b _ _ ha hb h
    have : decDigits k = decDigits j := hsfx
    exact ⟨hab, decDigits_inj this⟩

theorem count_take_lt {l : List (List Char)} {a : List Char} {i j : Nat}
    (hij : i < j) (hi : l[i]? = some a) :
    (l.take i).count a < (l.take j).count a := by
  have hil : i < l.length := by
    by_contra hc
    rw [List.getElem?_eq_none (by omega)] at hi
    cases hi
  have hsplit : l.take j = l.take i ++ (l.drop i).take (j - i) := by
    have : j = i + (j - i) := by omega
    rw [this, List.take_add]
    congr 2
    omega
  have hdrop : l.drop i = a :: l.drop (i + 1) := by
    rw [List.drop_eq_getElem_cons hil]
    congr 1
    have := List.getElem?_eq_getElem hil
    rw [this] at hi
    exact (Option.some.injEq _ _).mp hi
  rw [hsplit, List.count_append, hdrop]
  have hji : j - i = (j - i - 1) + 1 := by omega
  rw [hji, List.take_succ_cons, List.count_cons_self]
  omega

/-- C1 (amended): every name produced by `normalize_headers` is non-empty,
lowercase, and accent-free; and the names are pairwise distinct whenever
no header's normalized form contains an underscore.  (Distinctness fails
in general: a raw header that itself normalizes to an already-generated
suffixed name collides, because suffixed names are never recorded in the
`seen` dictionary — see the counterexample.) -/
theorem C1_normalize_headers (hs : List (List Char)) :
    (∀ n ∈ normalize_headers hs, n ≠ [] ∧ ∀ c ∈ n, normalChar c = true) ∧
    ((∀ s ∈ hs, '_' ∉ normalize s) → (normalize_headers hs).Nodup) := by
  constructor
  · intro n hn
    obtain ⟨c, _, k, rfl⟩ := normHeadersGo_mem hn
    exact ⟨dedupName_ne_nil (normalize_ne_nil c),
      dedupName_chars (normalize_normal c)⟩
  · intro hU
    rw [List.nodup_iff_getElem?_ne_getElem?]
    intro i j hij hj hEq
    have hlen : (normalize_headers hs).length = hs.length :=
      normHeadersGo_length [] hs
    have hjl : j < hs.length := by rw [← hlen]; exact hj
    have hil : i < hs.length := by omega
    have hci := normalize_headers_getElem? hs i hil
    have hcj := normalize_headers_getElem? hs j hjl
    rw [hci, hcj] at hEq
    have hEq2 := (Option.some.injEq _ _).mp hEq
    have hgi : hs.getD i [] = hs[i] := by
      rw [List.getD_eq_getElem?_getD, List.getElem?_eq_getElem hil]
      rfl
    have hgj : hs.getD j [] = hs[j] := by
      rw [List.getD_eq_getElem?_getD, List.getElem?_eq_getElem hjl]
      rfl
    have hui : '_' ∉ normalize (hs.getD i []) := by
      rw [hgi]; exact hU _ (List.getElem_mem hil)
    have huj : '_' ∉ normalize (hs.getD j []) := by
      rw [hgj]; exact hU _ (List.getElem_mem hjl)
    obtain ⟨hnm, hkj⟩ := dedupName_inj hui huj hEq2
    have hmi : (hs.map normalize)[i]? = some (normalize (hs.getD i [])) := by
      rw [List.getElem?_map, List.getElem?_eq_getElem hil, hgi]
      rfl
    have hcount := count_take_lt hij hmi
    rw [← List.map_take, ← List.map_take] at hcount
    rw [hnm] at hkj hcount
    omega

/-- Witness for C1 at a concrete input. -/
theorem C1_witness :
    (normalize_headers ["Total".toList, "total".toList, "Total".toList]).Nodup :=
  (C1_normalize_headers _).2 (by decide)

/-- Counterexample for C1 as stated: the header list
`["total", "total", "total_1"]` produces `["total", "total_1", "total_1"]`,
which contains a duplicate — the generated suffixed name `total_1` is not
recorded in `seen`, so a later header normalizing to `total_1` collides. -/
theorem C1_counterexample :
    normalize_headers ["total".toList, "total".toList, "total_1".toList] =
      ["total".toList, "total_1".toList, "total_1".toList] ∧
    ¬(normalize_headers
        ["total".toList, "total".toList, "total_1".toList]).Nodup := by
  constructor
  · decide
  · decide

/-! ### Cells and simple type inference (main.py lines 97-119) -/

/-- A spreadsheet cell as read with `dtype="object"`: null (NaN/None), a
number, or a text value. -/
inductive Cell where
  | null : Cell
  | num : ℚ → Cell
  | str : List Char → Cell
deriving DecidableEq

/-- Parse an unsigned decimal literal: `digits`, `digits.digits`,
`digits.` or `.digits`.  Models the plain decimal forms accepted by
`pd.to_numeric(·, errors="coerce")`; exponent and infinity forms are
outside the model. -/
def parseDec (l : List Char) : Option ℚ :=
  match l.dropWhile (fun c => c.isDigit) with
  | [] =>
    if (l.takeWhile (fun c => c.isDigit)).isEmpty then none
    else some ((digitsVal (l.takeWhile (fun c => c.isDigit)) : ℚ))
  | '.' :: fp =>
    if fp.all (fun c => c.isDigit) &&
        !((l.takeWhile (fun c => c.isDigit)).isEmpty && fp.isEmpty) then
      some ((digitsVal (l.takeWhile (fun c => c.isDigit)) : ℚ) +
        (digitsVal fp : ℚ) / (10 ^ fp.length))
    else none
  | _ => none

/-- Model of `pd.to_numeric(x, errors="coerce")` on one text value:
optional sign, then an unsigned decimal literal, with surrounding
whitespace tolerated. -/
def parseNum (l : List Char) : Option ℚ :=
  match pyStrip l with
  | '-' :: r => (parseDec r).map (fun q => -q)
  | '+' :: r => parseDec r
  | r => parseDec r

/-- Element-wise numeric coercion: a null stays unparsed (NaN), a number
is itself, a text value goes through `parseNum`. -/
def toNumeric : Cell → Option ℚ
  | Cell.null => none
  | Cell.num q => some q
  | Cell.str s => parseNum s

/-- `x % 1 == 0` for the parsed value of a cell. -/
def hasZeroFrac (c : Cell) : Bool := ((toNumeric c).getD 0).den == 1

/-- `pd.isna`-style null test. -/
def isNullCell (c : Cell) : Bool := c == Cell.null

/-- The per-column rule of `build_simple_dtypes` (main.py lines 97-119):
`_sheet` is forced to `"string"`; a column whose non-null part is empty is
`"string"`; otherwise, if every non-null value is numeric the column is
`"int"` when every value has zero fractional part and `"float"`
otherwise; any non-numeric non-null value makes it `"string"`. -/
def inferColType (name : List Char) (col : List Cell) : List Char :=
  if name = "_sheet".toList then "string".toList
  else if (col.filter (fun c => !isNullCell c)).isEmpty then "string".toList
  else if (col.filter (fun c => !isNullCell c)).all
      (fun c => (toNumeric c).isSome) then
    if (col.filter (fun c => !isNullCell c)).all hasZeroFrac then "int".toList
    else "float".toList
  else "string".toList

/-- A pandas DataFrame in columnar form: the ordered association list of
column name to cell column, plus the row count. -/
structure Df where
  cols : List (List Char × List Cell)
  nrows : Nat
deriving DecidableEq

/-- `build_simple_dtypes` (main.py lines 97-119): the inferred type of
every column, in column order. -/
def build_simple_dtypes (df : Df) : List (List Char × List Char) :=
  df.cols.map (fun p => (p.1, inferColType p.1 p.2))

theorem mem_nonnull {col : List Cell} {c : Cell} :
    c ∈ col.filter (fun c => !isNullCell c) ↔ c ∈ col ∧ c ≠ Cell.null := by
  rw [List.mem_filter]
  simp [isNullCell]

/-- C2: type inference is total and assigns exactly the documented type:
`_sheet` is always "string"; an all-null column is "string"; a non-null
value that fails to parse as a number makes the column "string"; if every
non-null value parses, the column is "int" when every parsed value has
zero fractional part and "float" when some parsed value has a nonzero
fractional part.  The last conjunct lifts the rule to
`build_simple_dtypes` over a whole table. -/
theorem C2_build_simple_dtypes (name : List Char) (col : List Cell) :
    (name = "_sheet".toList → inferColType name col = "string".toList) ∧
    ((∀ c ∈ col, c = Cell.null) → inferColType name col = "string".toList) ∧
    ((∃ c ∈ col, c ≠ Cell.null ∧ toNumeric c = none) →
      inferColType name col = "string".toList) ∧
    (name ≠ "_sheet".toList → (∃ c ∈ col, c ≠ Cell.null) →
      ((∀ c ∈ col, c ≠ Cell.null →
          (toNumeric c).isSome = true ∧ ((toNumeric c).getD 0).den = 1) →
        inferColType name col = "int".toList) ∧
      ((∀ c ∈ col, c ≠ Cell.null → (toNumeric c).isSome = true) →
        (∃ c ∈ col, c ≠ Cell.null ∧ ((toNumeric c).getD 0).den ≠ 1) →
        inferColType name col = "float".toList)) ∧
    (∀ df : Df, ∀ p ∈ df.cols,
      (p.1, inferColType p.1 p.2) ∈ build_simple_dtypes df) := by
  refine ⟨?_, ?_, ?_, ?_, ?_⟩
  · intro h
    unfold inferColType
    rw [if_pos h]
  · intro h
    unfold inferColType
    have hnil : col.filter (fun c => !isNullCell c) = [] := by
      rw [List.filter_eq_nil_iff]
      intro a ha
      simp [isNullCell, h a ha]
    split_ifs with h1 h2 h3 h4 <;> try rfl
    all_goals rw [hnil] at h2; simp at h2
  · rintro ⟨c, hc, hcn, hcp⟩
    unfold inferColType
    have hcf : c ∈ col.filter (fun c => !isNullCell c) :=
      mem_nonnull.mpr ⟨hc, hcn⟩
    split_ifs with h1 h2 h3 h4 <;> try rfl
    all_goals exfalso
    all_goals have := List.all_eq_true.mp h3 c hcf
    all_goals rw [hcp] at this
    all_goals simp at this
  · intro hns hex
    constructor
    · intro hall
      unfold inferColType
      rw [if_neg hns]
      have hne : ¬(col.filter (fun c => !isNullCell c)).isEmpty = true := by
        obtain ⟨c, hc, hcn⟩ := hex
        rw [List.isEmpty_iff]
        intro hnil
        have := mem_nonnull.mpr ⟨hc, hcn⟩
        rw [hnil] at this
        cases this
      rw [if_neg hne]
      have hsome : (col.filter (fun c => !isNullCell c)).all
          (fun c => (toNumeric c).isSome) = true := by
        rw [List.all_eq_true]
        intro c hcf
        exact (hall c (mem_nonnull.mp hcf).1 (mem_nonnull.mp hcf).2).1
      rw [if_pos hsome]
      have hzero : (col.filter (fun c => !isNullCell c)).all hasZeroFrac = true := by
        rw [List.all_eq_true]
        intro c hcf
        have := (hall c (mem_nonnull.mp hcf).1 (mem_nonnull.mp hcf).2).2
        simp [hasZeroFrac, this]
      rw [if_pos hzero]
    · intro hall hfrac
      unfold inferColType
      rw [if_neg hns]
      have hne : ¬(col.filter (fun c => !isNullCell c)).isEmpty = true := by
        obtain ⟨c, hc, hcn⟩ := hex
        rw [List.isEmpty_iff]
        intro hnil
        have := mem_nonnull.mpr ⟨hc, hcn⟩
        rw [hnil] at this
        cases this
      rw [if_neg hne]
      have hsome : (col.filter (fun c => !isNullCell c)).all
          (fun c => (toNumeric c).isSome) = true := by
        rw [List.all_eq_true]
        intro c hcf
        exact hall c (mem_nonnull.mp hcf).1 (mem_nonnull.mp hcf).2
      rw [if_pos hsome]
      have hnzero : ¬(col.filter (fun c => !isNullCell c)).all hasZeroFrac = true := by
        obtain ⟨c, hc, hcn, hcd⟩ := hfrac
        intro hzr
        have := List.all_eq_true.mp hzr c (mem_nonnull.mpr ⟨hc, hcn⟩)
        simp [hasZeroFrac] at this
        exact hcd this
      rw [if_neg hnzero]
  · intro df p hp
    exact List.mem_map_of_mem _ hp

/-- Witness for C2: the numeric column `[1, 2, 3]` infers `"int"`. -/
theorem C2_witness :
    inferColType "x".toList [Cell.num 1, Cell.num 2, Cell.num 3] =
      "int".toList :=
  ((C2_build_simple_dtypes "x".toList
      [Cell.num 1, Cell.num 2, Cell.num 3]).2.2.2.1
    (by decide) (by decide)).1 (by decide)

/-! ### Sheet unification (main.py lines 72-91) -/

/-- Column labels of a frame, in order. -/
def Df.names (df : Df) : List (List Char) := df.cols.map Prod.fst

/-- `n in df.columns`. -/
def Df.hasCol (df : Df) (n : List Char) : Bool := decide (n ∈ df.names)

/-- `df[n]` under unique labels: the first column labelled `n`. -/
def lookupCol (df : Df) (n : List Char) : Option (List Cell) :=
  (df.cols.find? (fun p => p.1 == n)).map (fun p => p.2)

/-- Wellformedness: every column holds exactly `nrows` cells. -/
def Df.wf (df : Df) : Prop := ∀ p ∈ df.cols, p.2.length = df.nrows

/-- `normalize_headers` applied to a frame: new labels, same data
(main.py lines 36-39). -/
def normalizeDf (df : Df) : Df :=
  ⟨(normalize_headers df.names).zip (df.cols.map Prod.snd), df.nrows⟩

/-- The per-sheet normalization step of `unify_sheets`. -/
def fnormOf (frames : List (List Char × Df)) : List (List Char × Df) :=
  frames.map (fun q => (q.1, normalizeDf q.2))

/-- First-seen-order deduplication.  The source builds `all_cols` as a
Python `set` and then lists it; the set's iteration order is unspecified
(the spec flags this as an open question), so the model fixes first-seen
order. -/
def dedupF (l : List (List Char)) : List (List Char) :=
  l.foldl (fun acc a => if a ∈ acc then acc else acc ++ [a]) []

/-- `all_cols`: the union of the normalized column labels of all sheets. -/
def allColsOf (fnorm : List (List Char × Df)) : List (List Char) :=
  dedupF (fnorm.flatMap (fun q => q.2.names))

/-- The loop `for c in all_cols: if c not in tmp.columns: tmp[c] = pd.NA`:
missing columns are appended in `all_cols` order, filled with nulls. -/
def addMissing (allCols : List (List Char)) (df : Df) : Df :=
  allCols.foldl
    (fun acc c =>
      if acc.hasCol c then acc
      else ⟨acc.cols ++ [(c, List.replicate acc.nrows Cell.null)], acc.nrows⟩)
    df

/-- `tmp = tmp[all_cols]`: for each requested label in order, take every
column bearing that label. -/
def selectCols (allCols : List (List Char)) (df : Df) : Df :=
  ⟨allCols.flatMap (fun c => df.cols.filter (fun p => p.1 == c)), df.nrows⟩

/-- `tmp[n] = v` with a scalar `v`: overwrite every column labelled `n`
in place, or append a new column when the label is absent. -/
def setCol (df : Df) (n : List Char) (v : Cell) : Df :=
  if df.hasCol n then
    ⟨df.cols.map (fun p =>
      if p.1 == n then (p.1, List.replicate df.nrows v) else p), df.nrows⟩
  else ⟨df.cols ++ [(n, List.replicate df.nrows v)], df.nrows⟩

/-- The `_sheet` label. -/
def sheetTag : List Char := "_sheet".toList

/-- Alignment of one (already normalized) sheet: fill missing columns
with nulls, reorder to `all_cols`, then set the `_sheet` column to the
sheet's name. -/
def alignFrame (allCols : List (List Char)) (p : List Char × Df) : Df :=
  setCol (selectCols allCols (addMissing allCols p.2)) sheetTag (Cell.str p.1)

/-- `pd.concat(aligned, ignore_index=True)` on frames with identical
column label lists: positional stacking of the columns, row counts
added. -/
def concatDfs (dfs : List Df) : Df :=
  match dfs with
  | [] => ⟨[], 0⟩
  | d :: _ =>
    ⟨(List.range d.cols.length).map (fun i =>
        ((d.cols[i]?.map Prod.fst).getD [],
          dfs.flatMap (fun e => (e.cols[i]?.map Prod.snd).getD []))),
      (dfs.map Df.nrows).sum⟩

/-- `unify_sheets` (main.py lines 72-91). -/
def unify_sheets (frames : List (List Char × Df)) : Df :=
  concatDfs ((fnormOf frames).map (alignFrame (allColsOf (fnormOf frames))))

/-- The column labels of the master table: `all_cols`, plus `_sheet`
appended when no sheet contributed a `_sheet` column. -/
def withTag (A : List (List Char)) : List (List Char) :=
  if sheetTag ∈ A then A else A ++ [sheetTag]

/-- The block of cells an aligned (already normalized) sheet contributes
to column `n` of the master table: the sheet name for `_sheet`, the
sheet's own column if present, and nulls otherwise. -/
def dataFor (p : List Char × Df) (n : List Char) : List Cell :=
  if n = sheetTag then List.replicate p.2.nrows (Cell.str p.1)
  else (lookupCol p.2 n).getD (List.replicate p.2.nrows Cell.null)

theorem dedupF_go_mem (l : List (List Char)) :
    ∀ (acc : List (List Char)) (x : List Char),
      (x ∈ l.foldl (fun acc a => if a ∈ acc then acc else acc ++ [a]) acc) ↔
        x ∈ acc ∨ x ∈ l := by
  induction l with
  | nil => intro acc x; simp
  | cons a l ih =>
    intro acc x
    by_cases ha : a ∈ acc
    · rw [List.foldl_cons, if_pos ha, ih]
      constructor
      · rintro (h | h)
        · exact Or.inl h
        · exact Or.inr (List.mem_cons_of_mem _ h)
      · rintro (h | h)
        · exact Or.inl h
        · rcases List.mem_cons.mp h with rfl | h2
          · exact Or.inl ha
          · exact Or.inr h2
    · rw [List.foldl_cons, if_neg ha, ih]
      rw [List.mem_append, List.mem_singleton, List.mem_cons]
      tauto

theorem dedupF_mem {l : List (List Char)} {x : List Char} :
    x ∈ dedupF l ↔ x ∈ l := by
  rw [dedupF, dedupF_go_mem]
  simp

theorem dedupF_go_nodup (l : List (List Char)) :
    ∀ acc : List (List Char), acc.Nodup →
      (l.foldl (fun acc a => if a ∈ acc then acc else acc ++ [a]) acc).Nodup := by
  induction l with
  | nil => intro acc h; simpa using h
  | cons a l ih =>
    intro acc h
    by_cases ha : a ∈ acc
    · rw [List.foldl_cons, if_pos ha]
      exact ih acc h
    · rw [List.foldl_cons, if_neg ha]
      refine ih _ ?_
      rw [List.nodup_append]
      exact ⟨h, List.nodup_singleton _, by simpa using ha⟩

theorem dedupF_nodup (l : List (List Char)) : (dedupF l).Nodup :=
  dedupF_go_nodup l [] List.nodup_nil

/-! ### Association-list lemmas on frame columns -/

theorem find?_cols_eq_none {cols : List (List Char × List Cell)}
    {n : List Char} (h : n ∉ cols.map Prod.fst) :
    cols.find? (fun p => p.1 == n) = none := by
  rw [List.find?_eq_none]
  intro p hp hpn
  exact h (List.mem_map.mpr ⟨p, hp, by simpa using hpn⟩)

theorem find?_cols_isSome {cols : List (List Char × List Cell)}
    {n : List Char} (h : n ∈ cols.map Prod.fst) :
    (cols.find? (fun p => p.1 == n)).isSome = true := by
  obtain ⟨p, hp, hpn⟩ := List.mem_map.mp h
  cases hf : cols.find? (fun p => p.1 == n) with
  | some q => rfl
  | none =>
    rw [List.find?_eq_none] at hf
    exact absurd (by simpa using hpn) (hf p hp)

theorem cols_filter_singleton :
    ∀ (cols : List (List Char × List Cell)) {n : List Char},
      (cols.map Prod.fst).Nodup → n ∈ cols.map Prod.fst →
      ∃ d, lookupCol ⟨cols, 0⟩ n = some d ∧
        cols.filter (fun p => p.1 == n) = [(n, d)] := by
  intro cols
  induction cols with
  | nil => intro n _ hn; simp at hn
  | cons q cols ih =>
    intro n hnd hn
    by_cases hq : q.1 = n
    · refine ⟨q.2, ?_, ?_⟩
      · simp [lookupCol, List.find?, hq]
      · have hnotin : ∀ p ∈ cols, ¬(p.1 == n) = true := by
          intro p hp hpn
          rw [List.map_cons, List.nodup_cons] at hnd
          exact hnd.1 (hq ▸ (by simpa using hpn) ▸ List.mem_map.mpr ⟨p, hp, rfl⟩)
        rw [List.filter_cons]
        rw [if_pos (by simpa using hq)]
        rw [List.filter_eq_nil_iff.mpr hnotin]
        have : q = (n, q.2) := by
          cases q
          simp at hq
          simp [hq]
        rw [← this]
    · rw [List.map_cons, List.nodup_cons] at hnd
      have hn2 : n ∈ cols.map Prod.fst := by
        rcases List.mem_cons.mp hn with h | h
        · exact absurd h.symm hq
        · exact h
      obtain ⟨d, hd1, hd2⟩ := ih hnd.2 hn2
      refine ⟨d, ?_, ?_⟩
      · have hb : (q.1 == n) = false := by simpa using hq
        simpa [lookupCol, List.find?, hb] using hd1
      · rw [List.filter_cons, if_neg (by simpa using hq), hd2]

theorem find?_map_pair {A : List (List Char)} (g : List Char → List Cell)
    {n : List Char} (h : n ∈ A) :
    ((A.map (fun c => (c, g c))).find? (fun p => p.1 == n)) = some (n, g n) := by
  induction A with
  | nil => simp at h
  | cons a A ih =>
    by_cases ha : a = n
    · subst ha
      simp [List.find?]
    · have hb : (a == n) = false := by simpa using ha
      rcases List.mem_cons.mp h with rfl | h2
      · simp at hb
      · simp only [List.map_cons, List.find?, hb]
        exact ih h2

theorem lookupCol_map_pair {A : List (List Char)} (g : List Char → List Cell)
    (nr : Nat) {n : List Char} (h : n ∈ A) :
    lookupCol ⟨A.map (fun c => (c, g c)), nr⟩ n = some (g n) := by
  rw [lookupCol]
  show ((A.map (fun c => (c, g c))).find? (fun p => p.1 == n)).map _ = _
  rw [find?_map_pair g h]
  rfl

theorem lookupCol_mk (cols : List (List Char × List Cell)) (nr : Nat)
    (n : List Char) : lookupCol ⟨cols, nr⟩ n = lookupCol ⟨cols, 0⟩ n := rfl

theorem addMissing_eq :
    ∀ (A : List (List Char)), A.Nodup → ∀ acc : Df,
      addMissing A acc =
        ⟨acc.cols ++ (A.filter (fun c => !acc.hasCol c)).map
          (fun c => (c, List.replicate acc.nrows Cell.null)), acc.nrows⟩ := by
  intro A
  induction A with
  | nil => intro _ acc; simp [addMissing]
  | cons a A ih =>
    intro hA acc
    obtain ⟨ha, hA2⟩ := List.nodup_cons.mp hA
    have hstep : addMissing (a :: A) acc =
        addMissing A (if acc.hasCol a then acc
          else ⟨acc.cols ++ [(a, List.replicate acc.nrows Cell.null)],
            acc.nrows⟩) := by
      simp only [addMissing, List.foldl_cons]
    by_cases hc : acc.hasCol a = true
    · rw [hstep, if_pos hc, ih hA2 acc]
      have : (a :: A).filter (fun c => !acc.hasCol c) =
          A.filter (fun c => !acc.hasCol c) := by
        rw [List.filter_cons, hc]
        simp
      rw [this]
    · have hcf : acc.hasCol a = false := by simpa using hc
      rw [hstep, if_neg hc, ih hA2]
      have hfil : A.filter (fun c =>
          !(Df.hasCol ⟨acc.cols ++ [(a, List.replicate acc.nrows Cell.null)],
            acc.nrows⟩ c)) = A.filter (fun c => !acc.hasCol c) := by
        refine List.filter_congr ?_
        intro x hx
        have hxa : x ≠ a := fun h2 => ha (h2 ▸ hx)
        simp [Df.hasCol, Df.names, hxa]
      rw [hfil]
      have hfcons : (a :: A).filter (fun c => !acc.hasCol c) =
          a :: A.filter (fun c => !acc.hasCol c) := by
        rw [List.filter_cons, hcf]
        simp
      rw [hfcons, List.map_cons]
      simp

theorem addMissing_names (A : List (List Char)) (hA : A.Nodup) (df : Df) :
    (addMissing A df).names =
      df.names ++ A.filter (fun c => !df.hasCol c) := by
  rw [addMissing_eq A hA df]
  simp only [Df.names, List.map_append, List.map_map]
  congr 1
  refine (List.map_congr_left ?_).trans (List.map_id _)
  intro x _
  rfl

theorem addMissing_names_nodup (A : List (List Char)) (hA : A.Nodup)
    (df : Df) (hnd : df.names.Nodup) : (addMissing A df).names.Nodup := by
  rw [addMissing_names A hA df, List.nodup_append]
  refine ⟨hnd, hA.filter _, ?_⟩
  intro x hx hx2
  have := (List.mem_filter.mp hx2).2
  simp [Df.hasCol] at this
  exact this hx

theorem addMissing_sub (A : List (List Char)) (hA : A.Nodup) (df : Df) :
    ∀ c ∈ A, c ∈ (addMissing A df).names := by
  intro c hcA
  rw [addMissing_names A hA df, List.mem_append]
  by_cases hc : c ∈ df.names
  · exact Or.inl hc
  · refine Or.inr (List.mem_filter.mpr ⟨hcA, ?_⟩)
    simp [Df.hasCol, hc]

theorem addMissing_lookup_mem (A : List (List Char)) (hA : A.Nodup)
    (df : Df) {c : List Char} (hc : c ∈ df.names) :
    lookupCol (addMissing A df) c = lookupCol df c := by
  rw [addMissing_eq A hA df]
  rw [lookupCol_mk, lookupCol, lookupCol]
  show ((df.cols ++ _).find? _).map _ = _
  rw [List.find?_append]
  have hs : (df.cols.find? (fun p => p.1 == c)).isSome = true :=
    find?_cols_isSome (by simpa [Df.names] using hc)
  cases hf : df.cols.find? (fun p => p.1 == c) with
  | none => rw [hf] at hs; simp at hs
  | some q => rfl

theorem addMissing_lookup_missing (A : List (List Char)) (hA : A.Nodup)
    (df : Df) {c : List Char} (hcA : c ∈ A) (hc : c ∉ df.names) :
    lookupCol (addMissing A df) c =
      some (List.replicate df.nrows Cell.null) := by
  rw [addMissing_eq A hA df]
  rw [lookupCol]
  show ((df.cols ++ _).find? _).map _ = _
  rw [List.find?_append, find?_cols_eq_none hc, Option.none_or]
  have hcf : c ∈ A.filter (fun c => !df.hasCol c) := by
    refine List.mem_filter.mpr ⟨hcA, ?_⟩
    simp [Df.hasCol, hc]
  rw [find?_map_pair (fun _ => List.replicate df.nrows Cell.null) hcf]
  rfl

theorem selectCols_eq (A : List (List Char)) (df : Df)
    (hnd : df.names.Nodup) (hsub : ∀ c ∈ A, c ∈ df.names) :
    selectCols A df =
      ⟨A.map (fun c => (c, (lookupCol df c).getD [])), df.nrows⟩ := by
  unfold selectCols
  congr 1
  induction A with
  | nil => rfl
  | cons a A ih =>
    rw [List.flatMap_cons, List.map_cons,
      ih (fun c hc => hsub c (List.mem_cons_of_mem _ hc))]
    obtain ⟨d, hd1, hd2⟩ := cols_filter_singleton df.cols
      (by simpa [Df.names] using hnd)
      (by simpa [Df.names] using hsub a (List.mem_cons_self _ _))
    rw [hd2]
    have : lookupCol df a = some d := by
      cases df
      simpa [lookupCol_mk] using hd1
    rw [this]
    simp

theorem setCol_map_pair (A : List (List Char)) (g : List Char → List Cell)
    (nr : Nat) (v : Cell) (n : List Char) :
    setCol ⟨A.map (fun c => (c, g c)), nr⟩ n v =
      ⟨(if n ∈ A then A else A ++ [n]).map
        (fun c => (c, if c = n then List.replicate nr v else g c)), nr⟩ := by
  unfold setCol
  have hnames : Df.hasCol ⟨A.map (fun c => (c, g c)), nr⟩ n = decide (n ∈ A) := by
    simp [Df.hasCol, Df.names]
  by_cases hn : n ∈ A
  · rw [if_pos (by rw [hnames]; exact decide_eq_true hn), if_pos hn]
    congr 1
    rw [List.map_map]
    refine List.map_congr_left ?_
    intro c _
    by_cases hc : c = n
    · have hb : (c == n) = true := by simpa using hc
      simp only [Function.comp, hb]
      simp [hc]
    · have hb : (c == n) = false := by simpa using hc
      simp only [Function.comp, hb]
      simp [hc]
  · rw [if_neg (by rw [hnames]; simpa using hn), if_neg hn]
    congr 1
    rw [List.map_append]
    congr 1
    · refine List.map_congr_left ?_
      intro c hc
      have hcn : ¬c = n := fun h2 => hn (h2 ▸ hc)
      simp [hcn]
    · simp

theorem alignFrame_eq (A : List (List Char)) (sh : List Char) (dfn : Df)
    (hA : A.Nodup) (hnd : dfn.names.Nodup) :
    alignFrame A (sh, dfn) =
      ⟨(withTag A).map (fun n => (n, dataFor (sh, dfn) n)), dfn.nrows⟩ := by
  have hMnd : (addMissing A dfn).names.Nodup := addMissing_names_nodup A hA dfn hnd
  have hMsub : ∀ c ∈ A, c ∈ (addMissing A dfn).names := addMissing_sub A hA dfn
  have hMnr : (addMissing A dfn).nrows = dfn.nrows := by
    rw [addMissing_eq A hA dfn]
  unfold alignFrame
  rw [selectCols_eq A (addMissing A dfn) hMnd hMsub, hMnr]
  have hlk : A.map (fun c => (c, (lookupCol (addMissing A dfn) c).getD [])) =
      A.map (fun c =>
        (c, (lookupCol dfn c).getD (List.replicate dfn.nrows Cell.null))) := by
    refine List.map_congr_left ?_
    intro c hcA
    by_cases hc : c ∈ dfn.names
    · rw [addMissing_lookup_mem A hA dfn hc]
      have hs : (dfn.cols.find? (fun p => p.1 == c)).isSome = true :=
        find?_cols_isSome (by simpa [Df.names] using hc)
      cases hf : lookupCol dfn c with
      | none =>
        exfalso
        rw [lookupCol] at hf
        cases hfind : List.find? (fun p => p.1 == c) dfn.cols with
        | none => rw [hfind] at hs; simp at hs
        | some q => rw [hfind] at hf; simp at hf
      | some d => rfl
    · have hnone : lookupCol dfn c = none := by
        rw [lookupCol, find?_cols_eq_none (by simpa [Df.names] using hc)]
        rfl
      rw [addMissing_lookup_missing A hA dfn hcA hc, hnone]
      rfl
  rw [hlk, setCol_map_pair]
  rw [withTag]
  congr 1

theorem concatDfs_cols_cons (d : Df) (ds : List Df) :
    (concatDfs (d :: ds)).cols =
      (List.range d.cols.length).map (fun i =>
        ((d.cols[i]?.map Prod.fst).getD [],
          (d :: ds).flatMap (fun e => (e.cols[i]?.map Prod.snd).getD []))) := rfl

theorem concatDfs_map_cols {α : Type} (xs : List α) (hne : xs ≠ [])
    (A : List (List Char)) (G : α → List Char → List Cell) (nr : α → Nat) :
    (concatDfs (xs.map
        (fun x => (⟨A.map (fun n => (n, G x n)), nr x⟩ : Df)))).cols =
      A.map (fun n => (n, xs.flatMap (fun x => G x n))) := by
  cases xs with
  | nil => cases hne rfl
  | cons x xs =>
    rw [List.map_cons, concatDfs_cols_cons]
    have hlen : (Df.cols (⟨A.map (fun n => (n, G x n)), nr x⟩ : Df)).length =
        A.length := by simp
    rw [hlen]
    refine List.ext_getElem? ?_
    intro i
    rw [List.getElem?_map, List.getElem?_map]
    by_cases hi : i < A.length
    · rw [List.getElem?_range hi, List.getElem?_eq_getElem hi]
      simp only [Option.map_some]
      refine congrArg some (Prod.ext ?_ ?_)
      · show ((((A.map (fun n => (n, G x n)))[i]?).map Prod.fst).getD []) = A[i]
        rw [List.getElem?_map, List.getElem?_eq_getElem hi]
        rfl
      · show ((⟨A.map (fun n => (n, G x n)), nr x⟩ : Df) ::
            xs.map (fun x => (⟨A.map (fun n => (n, G x n)), nr x⟩ : Df))).flatMap
            (fun e => (e.cols[i]?.map Prod.snd).getD []) = _
        rw [show ((⟨A.map (fun n => (n, G x n)), nr x⟩ : Df) ::
            xs.map (fun x => (⟨A.map (fun n => (n, G x n)), nr x⟩ : Df))) =
            (x :: xs).map (fun x => (⟨A.map (fun n => (n, G x n)), nr x⟩ : Df))
          from rfl]
        rw [List.flatMap_map]
        congr 1
        funext y
        show ((((A.map (fun n => (n, G y n)))[i]?).map Prod.snd).getD []) = G y A[i]
        rw [List.getElem?_map, List.getElem?_eq_getElem hi]
        rfl
    · rw [List.getElem?_eq_none (by rw [List.length_range]; omega),
        List.getElem?_eq_none (by omega)]
      rfl

theorem fnormOf_ne_nil {frames : List (List Char × Df)} (hne : frames ≠ []) :
    fnormOf frames ≠ [] := by
  cases frames with
  | nil => exact absurd rfl hne
  | cons q l => simp [fnormOf]

/-- Master form of the unified table: one column per label of
`withTag all_cols`, each the concatenation of the per-sheet blocks. -/
theorem unify_sheets_cols (frames : List (List Char × Df))
    (hne : frames ≠ [])
    (hnd : ∀ p ∈ frames, (normalizeDf p.2).names.Nodup) :
    (unify_sheets frames).cols =
      (withTag (allColsOf (fnormOf frames))).map (fun n =>
        (n, frames.flatMap (fun q => dataFor (q.1, normalizeDf q.2) n))) := by
  have hA : (allColsOf (fnormOf frames)).Nodup := dedupF_nodup _
  have hmapalign :
      (fnormOf frames).map (alignFrame (allColsOf (fnormOf frames))) =
      (fnormOf frames).map (fun p =>
        (⟨(withTag (allColsOf (fnormOf frames))).map
          (fun n => (n, dataFor p n)), p.2.nrows⟩ : Df)) := by
    refine List.map_congr_left ?_
    intro p hp
    obtain ⟨q, hq, rfl⟩ := List.mem_map.mp hp
    exact alignFrame_eq _ q.1 (normalizeDf q.2) hA (hnd q hq)
  rw [unify_sheets, hmapalign]
  rw [concatDfs_map_cols (fnormOf frames) (fnormOf_ne_nil hne)
    (withTag (allColsOf (fnormOf frames))) (fun p n => dataFor p n)
    (fun p => p.2.nrows)]
  refine List.map_congr_left ?_
  intro n _
  rw [fnormOf, List.flatMap_map]

theorem unify_names (frames : List (List Char × Df)) (hne : frames ≠ [])
    (hnd : ∀ p ∈ frames, (normalizeDf p.2).names.Nodup) :
    (unify_sheets frames).names = withTag (allColsOf (fnormOf frames)) := by
  rw [Df.names, unify_sheets_cols frames hne hnd, List.map_map]
  refine (List.map_congr_left ?_).trans (List.map_id _)
  intro x _
  rfl

theorem lookupCol_unify (frames : List (List Char × Df)) (hne : frames ≠ [])
    (hnd : ∀ p ∈ frames, (normalizeDf p.2).names.Nodup) {n : List Char}
    (hn : n ∈ withTag (allColsOf (fnormOf frames))) :
    lookupCol (unify_sheets frames) n =
      some (frames.flatMap (fun q => dataFor (q.1, normalizeDf q.2) n)) := by
  rw [lookupCol]
  have hc := unify_sheets_cols frames hne hnd
  rw [hc, find?_map_pair _ hn]
  rfl

/-- C10: in the table returned by `unify_sheets`, the `_sheet` column of
every row equals the name of the sheet the row came from — even when a
source sheet itself contains a header that normalizes to `_sheet`, in
which case that column's original cell values are overwritten by the
sheet name. -/
theorem C10_sheet_tag (frames : List (List Char × Df)) (hne : frames ≠ [])
    (hnd : ∀ p ∈ frames, (normalizeDf p.2).names.Nodup) :
    lookupCol (unify_sheets frames) sheetTag =
      some (frames.flatMap (fun q =>
        List.replicate q.2.nrows (Cell.str q.1))) := by
  have htag : sheetTag ∈ withTag (allColsOf (fnormOf frames)) := by
    rw [withTag]
    split
    · next h => exact h
    · exact List.mem_append_right _ (List.mem_singleton.mpr rfl)
  rw [lookupCol_unify frames hne hnd htag]
  have hq : ∀ q : List Char × Df, dataFor (q.1, normalizeDf q.2) sheetTag =
      List.replicate q.2.nrows (Cell.str q.1) := fun q => by
    rw [dataFor, if_pos rfl]
    rfl
  simp only [hq]

/-- C3: the column set of the table returned by `unify_sheets` equals
the union of the sheets' normalized column names plus `_sheet`; and in
every non-`_sheet` column, the rows contributed by a sheet that lacks
that column are all null (while a sheet that has it contributes its own
cells). -/
theorem C3_unify_sheets_union (frames : List (List Char × Df))
    (hne : frames ≠ [])
    (hnd : ∀ p ∈ frames, (normalizeDf p.2).names.Nodup) :
    (∀ n, n ∈ (unify_sheets frames).names ↔
      (n = sheetTag ∨ ∃ q ∈ frames, n ∈ (normalizeDf q.2).names)) ∧
    (∀ n, n ≠ sheetTag → n ∈ (unify_sheets frames).names →
      lookupCol (unify_sheets frames) n =
        some (frames.flatMap (fun q =>
          (lookupCol (normalizeDf q.2) n).getD
            (List.replicate q.2.nrows Cell.null)))) := by
  have hAiff : ∀ n, n ∈ allColsOf (fnormOf frames) ↔
      ∃ q ∈ frames, n ∈ (normalizeDf q.2).names := by
    intro n
    rw [allColsOf, dedupF_mem, List.mem_flatMap]
    constructor
    · rintro ⟨p, hp, hnp⟩
      obtain ⟨q, hq, rfl⟩ := List.mem_map.mp hp
      exact ⟨q, hq, hnp⟩
    · rintro ⟨q, hq, hnq⟩
      exact ⟨(q.1, normalizeDf q.2), List.mem_map.mpr ⟨q, hq, rfl⟩, hnq⟩
  constructor
  · intro n
    rw [unify_names frames hne hnd, withTag]
    split
    · next htag =>
      constructor
      · intro h
        right
        exact (hAiff n).mp h
      · rintro (rfl | h)
        · exact htag
        · exact (hAiff n).mpr h
    · next htag =>
      rw [List.mem_append, List.mem_singleton]
      constructor
      · rintro (h | h)
        · right
          exact (hAiff n).mp h
        · left
          exact h
      · rintro (rfl | h)
        · right
          rfl
        · left
          exact (hAiff n).mpr h
  · intro n hns hn
    rw [unify_names frames hne hnd] at hn
    rw [lookupCol_unify frames hne hnd hn]
    have hq : ∀ q : List Char × Df, dataFor (q.1, normalizeDf q.2) n =
        (lookupCol (normalizeDf q.2) n).getD
          (List.replicate q.2.nrows Cell.null) := fun q => by
      rw [dataFor, if_neg hns]
      rfl
    simp only [hq]

/-- Witness for C3: the spec's end-to-end example — sheet A has columns
`["ID", "Nombre"]`, sheet B has `["id", "Edad"]`; in the unified table
the `nombre` column holds sheet A's value followed by a null for sheet
B's row. -/
theorem C3_witness :
    lookupCol (unify_sheets
        [("A".toList, ⟨[("ID".toList, [Cell.num 1]),
            ("Nombre".toList, [Cell.str "ana".toList])], 1⟩),
         ("B".toList, ⟨[("id".toList, [Cell.num 2]),
            ("Edad".toList, [Cell.num 7])], 1⟩)])
      "nombre".toList = some [Cell.str "ana".toList, Cell.null] := by
  have h := (C3_unify_sheets_union
      [("A".toList, ⟨[("ID".toList, [Cell.num 1]),
          ("Nombre".toList, [Cell.str "ana".toList])], 1⟩),
       ("B".toList, ⟨[("id".toList, [Cell.num 2]),
          ("Edad".toList, [Cell.num 7])], 1⟩)]
      (by decide) (by decide)).2 "nombre".toList (by decide) (by decide)
  rw [h]
  decide

/-- Witness for C10: a single sheet that itself contains a `_sheet`
column (holding `"x"`); in the unified table the `_sheet` column holds
the sheet name `"hoja"`, not `"x"`. -/
theorem C10_witness :
    lookupCol (unify_sheets
        [("hoja".toList, ⟨[("_sheet".toList, [Cell.str "x".toList])], 1⟩)])
      sheetTag = some [Cell.str "hoja".toList] := by
  have h := C10_sheet_tag
      [("hoja".toList, ⟨[("_sheet".toList, [Cell.str "x".toList])], 1⟩)]
      (by decide) (by decide)
  rw [h]
  decide

/-! ### Excel reading (main.py lines 61-70) -/

/-- The sheet-selection argument `sheets_cfg : Union[str, List[str]]`. -/
inductive SheetsCfg where
  | str : List Char → SheetsCfg
  | list : List (List Char) → SheetsCfg
deriving DecidableEq

/-- Errors surfaced by the reader. -/
inductive PyErr where
  | invalidConfig : PyErr
  | sheetNotFound : PyErr
deriving DecidableEq

/-- Observable I/O events of the reader: opening/parsing the workbook
(`pd.ExcelFile(path)`) and reading one sheet (`pd.read_excel`). -/
inductive Ev where
  | openFile : List Char → Ev
  | readSheet : List Char → List Char → Ev
deriving DecidableEq

/-- Sheet lookup in the workbook (a workbook is its ordered list of
named sheets). -/
def lookupSheet (wb : List (List Char × Df)) (sh : List Char) : Option Df :=
  (wb.find? (fun p => p.1 == sh)).map (fun p => p.2)

/-- The comprehension
`{sh: pd.read_excel(path, sheet_name=sh, dtype="object") for sh in sheets}`:
one read event per sheet, failing at the first missing sheet. -/
def readFrames (wb : List (List Char × Df)) (path : List Char) :
    List (List Char) → List Ev × Except PyErr (List (List Char × Df))
  | [] => ([], Except.ok [])
  | sh :: rest =>
    match lookupSheet wb sh with
    | none => ([Ev.readSheet path sh], Except.error PyErr.sheetNotFound)
    | some d =>
      ((Ev.readSheet path sh) :: (readFrames wb path rest).1,
        (readFrames wb path rest).2.map (fun fr => (sh, d) :: fr))

/-- `read_excel_all_sheets` (main.py lines 61-70):
`xls = pd.ExcelFile(path)` opens and parses the workbook FIRST (the
`openFile` event); only then is `sheets_cfg` examined, and a value that
is neither the string `"all"` nor a list raises `ValueError` (modelled
as `invalidConfig`) before any per-sheet read. -/
def read_excel_all_sheets (wb : List (List Char × Df)) (path : List Char)
    (cfg : SheetsCfg) : List Ev × Except PyErr (List (List Char × Df)) :=
  match cfg with
  | SheetsCfg.str s =>
    if s = "all".toList then
      ((Ev.openFile path) :: (readFrames wb path (wb.map Prod.fst)).1,
        (readFrames wb path (wb.map Prod.fst)).2)
    else ([Ev.openFile path], Except.error PyErr.invalidConfig)
  | SheetsCfg.list l =>
    ((Ev.openFile path) :: (readFrames wb path l).1, (readFrames wb path l).2)

/-- C4 (amended): when the sheet-selection argument is neither the
sentinel "all" nor a list (a string other than "all"), the reader fails
with the invalid-configuration error and reads no sheet — but the
workbook has already been opened and parsed, because `pd.ExcelFile(path)`
runs before the configuration check. -/
theorem C4_read_excel_invalid_cfg (wb : List (List Char × Df))
    (path : List Char) (s : List Char) (hs : s ≠ "all".toList) :
    read_excel_all_sheets wb path (SheetsCfg.str s) =
      ([Ev.openFile path], Except.error PyErr.invalidConfig) := by
  rw [read_excel_all_sheets]
  rw [if_neg hs]

/-- Witness for C4 at a concrete input. -/
theorem C4_witness :
    read_excel_all_sheets [] "p".toList (SheetsCfg.str "hoja".toList) =
      ([Ev.openFile "p".toList], Except.error PyErr.invalidConfig) :=
  C4_read_excel_invalid_cfg [] "p".toList "hoja".toList (by decide)

/-- Counterexample for C4 as stated: with the invalid selection "foo",
the invalid-configuration error is indeed raised, but the event trace
shows the input file WAS opened and parsed first (`openFile` precedes
the failure), contradicting "before any file I/O is performed (the input
file is neither opened nor parsed)". -/
theorem C4_counterexample :
    (read_excel_all_sheets [] "f".toList (SheetsCfg.str "foo".toList)).2 =
      Except.error PyErr.invalidConfig ∧
    (read_excel_all_sheets [] "f".toList (SheetsCfg.str "foo".toList)).1 =
      [Ev.openFile "f".toList] := by
  constructor
  · rfl
  · rfl

/-! ### Safe filenames (main.py lines 41-55) -/

/-- The reserved filename characters of the class `[\\/:*?"<>|]`. -/
def reservedChar (c : Char) : Bool :=
  c == '\\' || c == '/' || c == ':' || c == '*' || c == '?' || c == '"' ||
    c == '<' || c == '>' || c == '|'

/-- `str.strip(" .")`: drop spaces and dots from both ends. -/
def stripDotSpace (l : List Char) : List Char :=
  ((l.dropWhile (fun c => c == ' ' || c == '.')).reverse.dropWhile
    (fun c => c == ' ' || c == '.')).reverse

/-- Python slicing `l[:i]` for an `int` bound `i`: a negative bound
counts from the end of the list. -/
def pySliceTo (i : Int) (l : List Char) : List Char :=
  if 0 ≤ i then l.take i.toNat else l.take (l.length - (-i).toNat)

/-- Modelled from the spec: `hashlib.md5(...).hexdigest()[:8]` is "the
first 8 hex characters of the content hash (a deterministic fixed-length
digest)".  md5's internals are not in the source; the model keeps exactly
the properties the program relies on — determinism, 8 characters, hex
alphabet — using a simple rolling hash. -/
def md5hex8 (s : List Char) : List Char :=
  (List.range 8).map (fun i =>
    Nat.digitChar ((s.foldl (fun a c => (a * 131 + c.toNat) % 4294967296) 5381
      / 16 ^ i) % 16))

/-- The value of `base` in `safe_filename` just before the length check
(main.py lines 48-51): snake-case of the accent-stripped name, runs of
reserved characters replaced by `_`, spaces/dots stripped from the ends,
empty result replaced by `"columna"`. -/
def sfBase (name : List Char) : List Char :=
  if stripDotSpace (collapseRuns reservedChar '_'
      (to_snake_case (remove_accents name))) = [] then "columna".toList
  else stripDotSpace (collapseRuns reservedChar '_'
    (to_snake_case (remove_accents name)))

/-- `safe_filename` (main.py lines 41-55): when the base exceeds
`max_len`, slice it to `max_len - 9` (Python slice semantics) and append
`_` plus the first 8 hex digest characters of the pre-truncation base. -/
def safe_filename (name : List Char) (max_len : Nat) : List Char :=
  if max_len < (sfBase name).length then
    pySliceTo ((max_len : Int) - 9) (sfBase name) ++
      '_' :: md5hex8 (sfBase name)
  else sfBase name

theorem md5hex8_length (s : List Char) : (md5hex8 s).length = 8 := by
  simp [md5hex8]

theorem md5hex8_not_reserved (s : List Char) :
    ∀ c ∈ md5hex8 s, reservedChar c = false := by
  intro c hc
  obtain ⟨i, _, rfl⟩ := List.mem_map.mp hc
  have h16 : (s.foldl (fun a c => (a * 131 + c.toNat) % 4294967296) 5381
      / 16 ^ i) % 16 < 16 := Nat.mod_lt _ (by omega)
  generalize (s.foldl (fun a c => (a * 131 + c.toNat) % 4294967296) 5381
      / 16 ^ i) % 16 = d at h16 ⊢
  interval_cases d <;> decide

theorem mem_stripDotSpace {l : List Char} {c : Char}
    (h : c ∈ stripDotSpace l) : c ∈ l := by
  unfold stripDotSpace at h
  rw [List.mem_reverse] at h
  have h1 := (List.dropWhile_sublist _).subset h
  rw [List.mem_reverse] at h1
  exact (List.dropWhile_sublist _).subset h1

theorem sfBase_not_reserved (name : List Char) :
    ∀ c ∈ sfBase name, reservedChar c = false := by
  intro c hc
  unfold sfBase at hc
  split at hc
  · revert hc
    revert c
    decide
  · have h1 := mem_stripDotSpace hc
    rcases collapseRunsAux_mem h1 with rfl | h2
    · decide
    · exact h2.2

theorem mem_pySliceTo {i : Int} {l : List Char} {c : Char}
    (h : c ∈ pySliceTo i l) : c ∈ l := by
  unfold pySliceTo at h
  split at h
  · exact List.take_subset _ _ h
  · exact List.take_subset _ _ h

/-- C9 (amended): for every input and every `max_len`, `safe_filename`
output contains none of the reserved characters; and whenever
`max_len ≥ 9`, the output has length at most `max_len`, an over-long
base being truncated to `max_len - 9` characters and suffixed with `_`
plus the 8-character digest of the pre-truncation base.  For
`max_len < 9` the Python slice `base[:max_len - 9]` is a negative slice
and the length bound fails (see the counterexample). -/
theorem C9_safe_filename_len (name : List Char) (max_len : Nat) :
    (∀ c ∈ safe_filename name max_len, reservedChar c = false) ∧
    (9 ≤ max_len →
      (safe_filename name max_len).length ≤ max_len ∧
      (max_len < (sfBase name).length →
        safe_filename name max_len =
          (sfBase name).take (max_len - 9) ++
            '_' :: md5hex8 (sfBase name))) := by
  constructor
  · intro c hc
    unfold safe_filename at hc
    split at hc
    · rcases List.mem_append.mp hc with h1 | h1
      · exact sfBase_not_reserved name c (mem_pySliceTo h1)
      · rcases List.mem_cons.mp h1 with rfl | h2
        · decide
        · exact md5hex8_not_reserved _ c h2
    · exact sfBase_not_reserved name c hc
  · intro h9
    have hslice : pySliceTo ((max_len : Int) - 9) (sfBase name) =
        (sfBase name).take (max_len - 9) := by
      unfold pySliceTo
      rw [if_pos (by omega)]
      congr 1
      omega
    by_cases hlong : max_len < (sfBase name).length
    · have heq : safe_filename name max_len =
          (sfBase name).take (max_len - 9) ++
            '_' :: md5hex8 (sfBase name) := by
        unfold safe_filename
        rw [if_pos hlong, hslice]
      refine ⟨?_, fun _ => heq⟩
      rw [heq]
      rw [List.length_append, List.length_cons, md5hex8_length,
        List.length_take]
      omega
    · have heq : safe_filename name max_len = sfBase name := by
        unfold safe_filename
        rw [if_neg hlong]
      rw [heq]
      exact ⟨by omega, fun h2 => absurd h2 hlong⟩

/-- Witness for C9 at a concrete input. -/
theorem C9_witness :
    (safe_filename "a".toList 100).length ≤ 100 :=
  ((C9_safe_filename_len "a".toList 100).2 (by decide)).1

/-- Counterexample for C9 as stated: with `max_len = 0` and a 20-character
name, the Python slice `base[:-9]` keeps 11 characters and the digest
suffix adds 9 more, so the output has 20 characters — exceeding
`max_len`. -/
theorem C9_counterexample :
    (safe_filename (List.replicate 20 'a') 0).length = 20 ∧
    ¬((safe_filename (List.replicate 20 'a') 0).length ≤ 0) := by
  constructor
  · decide
  · decide

end Prepl
